import Mathlib

/-
Verification of the parallel batch-execution engine of the emoo CLI
(src/services/shared/parallel.service.js).

The engine is a thin layer over listr2: each public method builds a list
of task closures and hands them to a listr2 runner configured with
`concurrent: concurrency`.  The JavaScript runtime is single-threaded and
cooperative, and each task body has exactly one suspension point (the
`await` of the unit-of-work callback), so every task's side effects
(pushing its outcome, invoking the progress callback, writing the scan
map) happen atomically when the task completes.  We therefore model a run
by (1) a bounded task pool that produces the order in which tasks
complete — the pool refills from the pending queue in input order and a
schedule parameter resolves the only nondeterminism, namely which of the
in-flight tasks finishes next — and (2) a deterministic replay of the
task bodies in that completion order.

Unit-of-work callbacks are modelled as `Except String` valued functions:
`Except.error msg` models a throw/rejection whose `error.message` is
`msg`.  JavaScript falsiness of optional string fields and of the
`options.x || default` idiom is modelled explicitly (`jsTruthy`,
`jsOrNat`).  Timestamps are not modelled: the engine writes them into
failure records but never reads them.
-/

set_option autoImplicit false

namespace Emoo

variable {ι β γ π τ : Type}

/-- A loosely typed result record as consumed by `generateSummary`: a
JavaScript object with optional `status` and `error` string fields.
`none` models an absent (`undefined`) field. -/
structure ResultRec where
  status : Option String
  error : Option String
deriving DecidableEq, Repr

/-- JavaScript truthiness of an optional string field: `undefined`,
`null` and the empty string are falsy, every other string is truthy. -/
def jsTruthy (o : Option String) : Bool :=
  match o with
  | none => false
  | some s => s != ""

/-- The `options.x || default` idiom on a numeric option: an absent or
zero (falsy) value falls back to the default. -/
def jsOrNat (v : Option Nat) (dflt : Nat) : Nat :=
  match v with
  | some n => if n = 0 then dflt else n
  | none => dflt

/-- The predicate of the `successful` filter of `generateSummary`
(line 203): `r.status === 'SUCCESS' || (!r.status && !r.error)`. -/
def isSuccessRec (r : ResultRec) : Bool :=
  r.status == some "SUCCESS" || (!jsTruthy r.status && !jsTruthy r.error)

/-- The predicate of the `failed` filter of `generateSummary`
(line 204): `r.status === 'FAILED' || r.error`. -/
def isFailedRec (r : ResultRec) : Bool :=
  r.status == some "FAILED" || jsTruthy r.error

/-- The summary object returned by `generateSummary`.  The `skipped`
field is a JavaScript number computed as `total - successful - failed`,
which can be negative, hence `Int`. -/
structure Summary where
  total : Nat
  successful : Nat
  failed : Nat
  skipped : Int
deriving DecidableEq, Repr

/-- The argument of `generateSummary`: either a JavaScript array of
result records or any non-array value (line 198 checks
`Array.isArray`). -/
inductive JsInput where
  | arr (rs : List ResultRec)
  | notArray (tag : String)
deriving DecidableEq, Repr

/-- Model of `generateSummary` (lines 197-220).  A non-array argument
yields the all-zero summary; otherwise the three counts are computed by
the two filters and the subtraction. -/
def generateSummary (results : JsInput) : Summary :=
  match results with
  | .notArray _ => ⟨0, 0, 0, 0⟩
  | .arr rs =>
    let total := rs.length
    let successful := (rs.filter isSuccessRec).length
    let failed := (rs.filter isFailedRec).length
    ⟨total, successful, failed, (total : Int) - successful - failed⟩

/-- One refill round of the listr2 task pool configured with
`concurrent: c`: tasks move from the head of the pending queue into the
pool, in input order, until the pool holds `c` tasks or no pending task
is left. -/
def fillPool (c : Nat) (pending running : List τ) : List τ × List τ :=
  (pending.drop (c - running.length), running ++ pending.take (c - running.length))

/-- Completion order of a bounded task pool.  After each refill, the head
of `sched` (mod pool size) selects which in-flight task finishes next;
its body runs to completion and a slot frees up.  `fuel` bounds the
recursion; one task completes per step, so `runPool` supplies the number
of tasks as fuel. -/
def runPoolAux (c : Nat) : Nat → List τ → List τ → List Nat → List τ
  | 0, _, _, _ => []
  | fuel + 1, pending, running, sched =>
    let p := (fillPool c pending running).1
    let r := (fillPool c pending running).2
    if h : r.length = 0 then []
    else
      let i : Fin r.length := ⟨sched.headD 0 % r.length, Nat.mod_lt _ (Nat.pos_of_ne_zero h)⟩
      r.get i :: runPoolAux c fuel p (r.eraseIdx i) sched.tail

/-- Completion order of running the tasks `items` through a listr2 pool
with `concurrent: c`, under the completion schedule `sched`. -/
def runPool (c : Nat) (items : List τ) (sched : List Nat) : List τ :=
  runPoolAux c items.length items [] sched

/-- The trace of `(pending, in-flight)` pool states visited by the same
recursion as `runPoolAux`, recorded after each refill. -/
def poolStatesAux (c : Nat) : Nat → List τ → List τ → List Nat → List (List τ × List τ)
  | 0, _, _, _ => []
  | fuel + 1, pending, running, sched =>
    let p := (fillPool c pending running).1
    let r := (fillPool c pending running).2
    if h : r.length = 0 then [(p, r)]
    else
      let i : Fin r.length := ⟨sched.headD 0 % r.length, Nat.mod_lt _ (Nat.pos_of_ne_zero h)⟩
      (p, r) :: poolStatesAux c fuel p (r.eraseIdx i) sched.tail

/-- Pool-state trace of a whole run over `items`. -/
def poolStates (c : Nat) (items : List τ) (sched : List Nat) : List (List τ × List τ) :=
  poolStatesAux c items.length items [] sched

/-- A record pushed onto `ctx.processResults` by a `createProcessTasks`
task body: on success the raw value returned by `processFunction`
(line 78), on a throw the catch-block record
`{item, status: 'FAILED', error: error.message, timestamp}` of
lines 94-99 (the timestamp is not modelled; the engine never reads
it). -/
inductive POutcome (ι β : Type) where
  | ok (r : β)
  | failed (item : ι) (error : String)
deriving DecidableEq, Repr

/-- The outcome a `createProcessTasks` task records for the enumerated
item `(index, item)`. -/
def outcomeOf (f : ι → Nat → Except String β) : Nat × ι → POutcome ι β
  | (ix, it) =>
    match f it ix with
    | .ok r => .ok r
    | .error e => .failed it e

/-- Replay of the `createProcessTasks` task bodies (lines 72-109) in
completion order.  Each task pushes exactly one record; the progress
callback is invoked as `(result, index, items.length)` on the success
path only (lines 88-91); on the error path the task rethrows only when
`exitOnError` is set (lines 103-107).  Returns the pushed records, the
progress-callback invocations, and the propagated exception if any. -/
def procRun (f : ι → Nat → Except String β) (total : Nat)
    (exitOnError hasProgress : Bool) :
    List (Nat × ι) → List (POutcome ι β) × List (β × Nat × Nat) × Option String
  | [] => ([], [], none)
  | (ix, it) :: rest =>
    match f it ix with
    | .ok r =>
      let t := procRun f total exitOnError hasProgress rest
      (.ok r :: t.1, (if hasProgress then [(r, ix, total)] else []) ++ t.2.1, t.2.2)
    | .error e =>
      if exitOnError then ([.failed it e], [], some e)
      else
        let t := procRun f total exitOnError hasProgress rest
        (.failed it e :: t.1, t.2.1, t.2.2)

/-- The options of `createProcessTasks` that affect the model:
`concurrency` as passed (absent or 0 falls back to the service default
through `||`, line 66) and whether a `progressCallback` was supplied. -/
structure ProcOpts where
  concurrency : Option Nat
  hasProgress : Bool

/-- Model of `createProcessTasks` (lines 65-133): enumerate the items,
run them through the listr2 pool, and replay the task bodies in
completion order.  Components: `ctx.processResults` in push order, the
progress-callback invocations, and the exception propagated out of
`mainTask.run()` if any. -/
def createProcessTasks (defaultConcurrency : Nat) (exitOnError : Bool)
    (items : List ι) (f : ι → Nat → Except String β) (opts : ProcOpts)
    (sched : List Nat) :
    List (POutcome ι β) × List (β × Nat × Nat) × Option String :=
  procRun f items.length exitOnError opts.hasProgress
    (runPool (jsOrNat opts.concurrency defaultConcurrency) items.enum sched)

/-- An entry stored in `ctx.scanResults[item]` by a `createScanTasks`
task body: the raw scan result on success (line 29), or the record
`{error: error.message}` built in the catch block (line 41). -/
inductive ScanStored (γ : Type) where
  | val (v : γ)
  | errRec (msg : String)
deriving DecidableEq, Repr

/-- JavaScript object property assignment `obj[k] = x` on an object
modelled as an association list: replacing an existing key keeps its
original position in the property order, a new key is appended. -/
def upsert [DecidableEq ι] (k : ι) (x : τ) : List (ι × τ) → List (ι × τ)
  | [] => [(k, x)]
  | (k₀, x₀) :: t => if k₀ = k then (k₀, x) :: t else (k₀, x₀) :: upsert k x t

/-- The entry a `createScanTasks` task stores for `item`. -/
def scanEntryOf (g : ι → Except String γ) (it : ι) : ScanStored γ :=
  match g it with
  | .ok v => .val v
  | .error e => .errRec e

/-- Replay of the `createScanTasks` task bodies (lines 23-44) in
completion order.  `ctx.scanResults` starts undefined (`none`) and is
created by the first write (`ctx.scanResults = ctx.scanResults || {}`);
every task writes exactly one entry under its item key, and the catch
branch marks the task skipped instead of rethrowing, so a scan run never
propagates an exception. -/
def scanWrites [DecidableEq ι] (g : ι → Except String γ) :
    List ι → Option (List (ι × ScanStored γ)) → Option (List (ι × ScanStored γ))
  | [], acc => acc
  | it :: rest, acc =>
    scanWrites g rest (some (upsert it (scanEntryOf g it) (acc.getD [])))

/-- The options of `createScanTasks` that affect the model. -/
structure ScanOpts where
  concurrency : Option Nat

/-- Model of `createScanTasks` (lines 17-60): run the scan tasks through
the listr2 pool and replay their writes to `ctx.scanResults` in
completion order.  The returned value is the `scanResults` field of the
context returned by `mainTask.run()`; it is `none` (undefined) when no
task ever wrote, i.e. when `items` is empty. -/
def createScanTasks [DecidableEq ι] (defaultConcurrency : Nat)
    (items : List ι) (g : ι → Except String γ) (opts : ScanOpts)
    (sched : List Nat) : Option (List (ι × ScanStored γ)) :=
  scanWrites g (runPool (jsOrNat opts.concurrency defaultConcurrency) items sched) none

/-- The value produced for one scan entry by
`options.extractItemsFromScanResult` (or by the default pass-through of
the stored scan result), as classified by lines 163-167: an array is
spread into `itemsToProcess`, a truthy non-array value is pushed as a
single item, a falsy value contributes nothing. -/
inductive ExtractVal (π : Type) where
  | arr (xs : List π)
  | one (x : π)
  | falsy
deriving DecidableEq, Repr

/-- Items contributed by one extraction value (lines 163-167). -/
def itemsFromVal : ExtractVal π → List π
  | .arr xs => xs
  | .one x => [x]
  | .falsy => []

/-- Truthiness of `scanResult.error` as tested by line 153 on a stored
entry: an error record `{error: msg}` has a truthy `error` field exactly
when `msg` is nonempty (a thrown error with an empty message stores
`{error: ""}`, whose field is falsy); a stored raw scan value is
modelled as carrying no `error` field (the scan results this code
extracts from are arrays or plain values), so the test is falsy on
it. -/
def errFieldTruthy : ScanStored γ → Bool
  | .val _ => false
  | .errRec msg => msg != ""

/-- Contribution of one `scanResults` entry to `itemsToProcess`
(lines 152-168): an entry whose stored record carries a truthy `error`
field is skipped (`continue`, line 155); any other entry — including a
falsy error record `{error: ""}` — is handed to the extraction function
as `(scanItem, scanResult)` and the returned value is pushed per
lines 163-167. -/
def contribOfEntry (extractF : ι → ScanStored γ → ExtractVal π) :
    ι × ScanStored γ → List π
  | (it, e) => if errFieldTruthy e then [] else itemsFromVal (extractF it e)

/-- The default extraction used when
`options.extractItemsFromScanResult` is absent (line 161): `items` is
the stored `scanResult` itself.  A stored raw scan value passes through
as-is; a stored (falsy) error record is a truthy non-array object, so it
classifies as a single pushed item — the record itself, represented in
the process-item type by the embedding `emb` of its message. -/
def defaultExtract (emb : String → π) :
    ι → ScanStored (ExtractVal π) → ExtractVal π
  | _, .val v => v
  | _, .errRec msg => .one (emb msg)

/-- The `itemsToProcess` accumulation loop of lines 151-168, over the
entries of `ctx.scanResults` in property order. -/
def itemsToProcessOf (extractF : ι → ScanStored γ → ExtractVal π)
    (entries : List (ι × ScanStored γ)) : List π :=
  entries.foldl (fun acc e => acc ++ contribOfEntry extractF e) []

/-- The value returned by `createScanAndProcessWorkflow` (lines 188-191
and the short-circuit return of line 172).  `ranPhase2` records whether
phase 2 (`createProcessTasks`) was entered at all, i.e. whether the
`itemsToProcess.length === 0` short-circuit of lines 170-173 was
taken. -/
structure WorkflowOut (ι γ π β : Type) where
  scanResults : List (ι × ScanStored γ)
  processResults : List (POutcome π β)
  ranPhase2 : Bool
deriving DecidableEq, Repr

/-- Model of `createScanAndProcessWorkflow` (lines 138-192).  Phase 1
scans; then `Object.entries(scanContext.scanResults)` is walked — when
`scanResults` is undefined (no scan item ever ran) this JavaScript call
throws `TypeError: Cannot convert undefined or null to object`, modelled
as the error case.  If the flattened item list is empty the workflow
returns early with an empty `processResults`; otherwise phase 2 runs and
its `ctx.processResults` (defaulted to `[]` on line 190) is returned. -/
def createScanAndProcessWorkflow [DecidableEq ι] (defaultConcurrency : Nat)
    (exitOnError : Bool) (scanItems : List ι) (g : ι → Except String γ)
    (f : π → Nat → Except String β) (extractF : ι → ScanStored γ → ExtractVal π)
    (opts : ProcOpts) (schedScan schedProc : List Nat) :
    Except String (WorkflowOut ι γ π β) :=
  match createScanTasks defaultConcurrency scanItems g ⟨opts.concurrency⟩ schedScan with
  | none => .error "Cannot convert undefined or null to object"
  | some entries =>
    let itemsToProcess := itemsToProcessOf extractF entries
    if itemsToProcess.length = 0 then
      .ok ⟨entries, [], false⟩
    else
      let t := createProcessTasks defaultConcurrency exitOnError itemsToProcess f opts schedProc
      match t.2.2 with
      | some e => .error e
      | none => .ok ⟨entries, t.1, true⟩

/-- The chunking loop of lines 230-233, with fuel (`k` is at least 1 in
every reachable call because `options.batchSize || 10` is never 0). -/
def chunksAux (k : Nat) : Nat → List τ → List (List τ)
  | 0, _ => []
  | _ + 1, [] => []
  | fuel + 1, x :: xs => ((x :: xs).take k) :: chunksAux k fuel ((x :: xs).drop k)

/-- Consecutive slices of at most `k` items (`items.slice(i, i + k)` for
`i = 0, k, 2k, ...`). -/
def chunkList (k : Nat) (xs : List τ) : List (List τ) :=
  chunksAux k xs.length xs

/-- The options of `createRateLimitedTasks` that affect the model. -/
structure RLOpts where
  batchSize : Option Nat
  delay : Option Nat
  concurrency : Option Nat
  hasProgress : Bool

/-- The batch loop of lines 239-258: run each batch through
`createProcessTasks` with the schedule for that batch index, append its
`ctx.processResults` (defaulted to `[]`, line 251), and sleep
`delayBetweenBatches` after every batch that is not the last when the
delay is positive (line 254).  Components: accumulated results, the
sleeps performed (in ms), and the exception propagated out of an
awaited batch if any (which aborts the loop). -/
def rlLoopAux (runBatch : List ι → List Nat → List (POutcome ι β) × List (β × Nat × Nat) × Option String)
    (delay : Nat) (scheds : List (List Nat)) :
    Nat → List (List ι) → List (POutcome ι β) × List Nat × Option String
  | _, [] => ([], [], none)
  | bi, batch :: rest =>
    let t := runBatch batch (scheds.getD bi [])
    match t.2.2 with
    | some e => ([], [], some e)
    | none =>
      let u := rlLoopAux runBatch delay scheds (bi + 1) rest
      (t.1 ++ u.1,
       (if rest.length = 0 ∨ delay = 0 then [] else [delay]) ++ u.2.1,
       u.2.2)

/-- Model of `createRateLimitedTasks` (lines 225-261): resolve the
defaults (`batchSize || 10`, `delay || 1000`), clamp the concurrency to
the batch size (line 228), chunk the items, and run the batch loop.  The
resolved concurrency is passed back through the `||` of
`createProcessTasks` exactly as the source passes it in the options
object. -/
def createRateLimitedTasks (defaultConcurrency : Nat) (exitOnError : Bool)
    (items : List ι) (f : ι → Nat → Except String β) (opts : RLOpts)
    (scheds : List (List Nat)) :
    List (POutcome ι β) × List Nat × Option String :=
  let batchSize := jsOrNat opts.batchSize 10
  let delayBetweenBatches := jsOrNat opts.delay 1000
  let concurrency := min (jsOrNat opts.concurrency defaultConcurrency) batchSize
  let batches := chunkList batchSize items
  rlLoopAux
    (fun batch sc =>
      createProcessTasks defaultConcurrency exitOnError batch f
        ⟨some concurrency, opts.hasProgress⟩ sc)
    delayBetweenBatches scheds 0 batches

/-- A refill never changes the combined number of pending and in-flight
tasks. -/
theorem fillPool_length_sum (c : Nat) (pending running : List τ) :
    (fillPool c pending running).1.length + (fillPool c pending running).2.length
      = pending.length + running.length := by
  simp only [fillPool, List.length_drop, List.length_append, List.length_take]
  omega

/-- A refill keeps the pool within the concurrency cap. -/
theorem fillPool_length_le (c : Nat) (pending running : List τ)
    (h : running.length ≤ c) : (fillPool c pending running).2.length ≤ c := by
  simp only [fillPool, List.length_append, List.length_take]
  omega

/-- Picking an element and erasing it from a list is a permutation of the
list. -/
theorem get_cons_eraseIdx_perm (l : List τ) (i : Fin l.length) :
    (l.get i :: l.eraseIdx i).Perm l := by
  induction l with
  | nil => exact absurd i.isLt (by simp)
  | cons a t ih =>
    match i with
    | ⟨0, _⟩ => simp [List.eraseIdx]
    | ⟨j + 1, hj⟩ =>
      have hj' : j < t.length := by simpa using hj
      have step : (t.get ⟨j, hj'⟩ :: a :: t.eraseIdx j).Perm
          (a :: t.get ⟨j, hj'⟩ :: t.eraseIdx j) := List.Perm.swap a _ _
      exact step.trans (List.Perm.cons a (ih ⟨j, hj'⟩))

/-- A refill moves tasks around but keeps the same multiset of pending
and in-flight tasks. -/
theorem fillPool_perm (c : Nat) (pending running : List τ) :
    ((fillPool c pending running).1 ++ (fillPool c pending running).2).Perm
      (pending ++ running) := by
  simp only [fillPool]
  refine (List.Perm.append_left _ List.perm_append_comm).trans ?_
  rw [← List.append_assoc]
  refine (List.Perm.append_right _ List.perm_append_comm).trans ?_
  rw [List.take_append_drop]

/-- The completion order produced by the pool is a permutation of the
tasks submitted, provided the concurrency is positive and enough fuel is
supplied. -/
theorem runPoolAux_perm (c : Nat) (hc : 0 < c) :
    ∀ (fuel : Nat) (pending running : List τ) (sched : List Nat),
      pending.length + running.length ≤ fuel →
      (runPoolAux c fuel pending running sched).Perm (pending ++ running) := by
  intro fuel
  induction fuel with
  | zero =>
    intro pending running sched hle
    have hp : pending = [] := by
      cases pending with
      | nil => rfl
      | cons a t => simp at hle
    have hr : running = [] := by
      cases running with
      | nil => rfl
      | cons a t => simp at hle
    simp [runPoolAux, hp, hr]
  | succ n ih =>
    intro pending running sched hle
    rw [runPoolAux]
    have hsum := fillPool_length_sum c pending running
    by_cases h : ((fillPool c pending running).2).length = 0
    · rw [dif_pos h]
      have hr : running = [] := by
        have : running.length ≤ (fillPool c pending running).2.length := by
          simp [fillPool]
        simp only [h, Nat.le_zero] at this
        exact List.length_eq_zero.mp this
      have hp : pending = [] := by
        subst hr
        simp only [fillPool, List.length_append, List.length_nil, List.length_take,
          Nat.zero_add, Nat.sub_zero] at h
        cases pending with
        | nil => rfl
        | cons a t =>
          exfalso
          have : min c (a :: t).length ≠ 0 := by
            simp only [List.length_cons, Nat.min_eq_zero_iff]
            omega
          exact this h
      simp [hp, hr]
    · rw [dif_neg h]
      set p := (fillPool c pending running).1 with hpdef
      set r := (fillPool c pending running).2 with hrdef
      set i : Fin r.length := ⟨sched.headD 0 % r.length, Nat.mod_lt _ (Nat.pos_of_ne_zero h)⟩
      have herase : (r.eraseIdx i).length = r.length - 1 :=
        List.length_eraseIdx_of_lt i.isLt
      have hfuel : p.length + (r.eraseIdx i).length ≤ n := by
        have hrpos : 0 < r.length := Nat.pos_of_ne_zero h
        omega
      have ihx := ih p (r.eraseIdx i) sched.tail hfuel
      have step1 : (r.get i :: runPoolAux c n p (r.eraseIdx i) sched.tail).Perm
          (r.get i :: (p ++ r.eraseIdx i)) := List.Perm.cons _ ihx
      have step2 : (r.get i :: (p ++ r.eraseIdx i)).Perm (p ++ (r.get i :: r.eraseIdx i)) :=
        List.perm_middle.symm
      have step3 : (p ++ (r.get i :: r.eraseIdx i)).Perm (p ++ r) :=
        List.Perm.append_left p (get_cons_eraseIdx_perm r i)
      have step4 : (p ++ r).Perm (pending ++ running) := fillPool_perm c pending running
      exact ((step1.trans step2).trans step3).trans step4

/-- The completion order of a full run is a permutation of the input
task list. -/
theorem runPool_perm (c : Nat) (hc : 0 < c) (items : List τ) (sched : List Nat) :
    (runPool c items sched).Perm items := by
  have h := runPoolAux_perm c hc items.length items [] sched (by simp)
  simpa using h

/-- Invariant of the pool-state trace: the pool never holds more than
`min c` (the concurrency cap) and the number of tasks not yet
completed. -/
theorem poolStatesAux_bound (c : Nat) :
    ∀ (fuel : Nat) (pending running : List τ) (sched : List Nat),
      running.length ≤ c →
      ∀ s ∈ poolStatesAux c fuel pending running sched,
        s.2.length ≤ min c (pending.length + running.length) := by
  intro fuel
  induction fuel with
  | zero =>
    intro pending running sched hrc s hs
    simp [poolStatesAux] at hs
  | succ n ih =>
    intro pending running sched hrc s hs
    rw [poolStatesAux] at hs
    have hsum := fillPool_length_sum c pending running
    have hcap := fillPool_length_le c pending running hrc
    by_cases h : ((fillPool c pending running).2).length = 0
    · rw [dif_pos h] at hs
      simp only [List.mem_singleton] at hs
      subst hs
      simp only [h]
      exact Nat.zero_le _
    · rw [dif_neg h] at hs
      simp only [List.mem_cons] at hs
      rcases hs with hs | hs
      · subst hs
        simp only [Nat.le_min]
        exact ⟨hcap, by omega⟩
      · set r := (fillPool c pending running).2
        set i : Fin r.length := ⟨sched.headD 0 % r.length, Nat.mod_lt _ (Nat.pos_of_ne_zero h)⟩
        have herase : (r.eraseIdx i).length = r.length - 1 :=
          List.length_eraseIdx_of_lt i.isLt
        have hrc' : (r.eraseIdx i).length ≤ c := by omega
        have := ih (fillPool c pending running).1 (r.eraseIdx i) sched.tail hrc' s hs
        have hrpos : 0 < r.length := Nat.pos_of_ne_zero h
        omega

/-- Pool-state bound for a full run. -/
theorem poolStates_bound (c : Nat) (items : List τ) (sched : List Nat) :
    ∀ s ∈ poolStates c items sched, s.2.length ≤ min c items.length := by
  intro s hs
  have h := poolStatesAux_bound c items.length items [] sched (by simp) s hs
  simpa using h

/-- With `exitOnError` off, the records pushed by the replayed task
bodies are exactly the per-item outcomes, in completion order. -/
theorem procRun_results (f : ι → Nat → Except String β) (total : Nat)
    (hasProgress : Bool) (l : List (Nat × ι)) :
    (procRun f total false hasProgress l).1 = l.map (outcomeOf f) := by
  induction l with
  | nil => rfl
  | cons x rest ih =>
    obtain ⟨ix, it⟩ := x
    simp only [procRun, outcomeOf, List.map_cons]
    cases hfx : f it ix with
    | ok r => simpa [hfx] using ih
    | error e => simpa [hfx] using ih

/-- With `exitOnError` off, no exception escapes the replayed task
bodies. -/
theorem procRun_no_throw (f : ι → Nat → Except String β) (total : Nat)
    (hasProgress : Bool) (l : List (Nat × ι)) :
    (procRun f total false hasProgress l).2.2 = none := by
  induction l with
  | nil => rfl
  | cons x rest ih =>
    obtain ⟨ix, it⟩ := x
    simp only [procRun]
    cases hfx : f it ix with
    | ok r => simpa [hfx] using ih
    | error e => simpa [hfx] using ih

/-- With a progress callback supplied and `exitOnError` off, the
progress invocations are exactly one per successfully processed task, in
completion order, each carrying the result, the item's original index
and the total item count. -/
theorem procRun_progress (f : ι → Nat → Except String β) (total : Nat)
    (l : List (Nat × ι)) :
    (procRun f total false true l).2.1
      = l.filterMap (fun x =>
          match f x.2 x.1 with
          | .ok r => some (r, x.1, total)
          | .error _ => none) := by
  induction l with
  | nil => rfl
  | cons x rest ih =>
    obtain ⟨ix, it⟩ := x
    simp only [procRun, List.filterMap_cons]
    cases hfx : f it ix with
    | ok r => simpa [hfx] using ih
    | error e => simpa [hfx] using ih

/-- Assigning a fresh key appends the entry at the end of the property
order. -/
theorem upsert_of_not_mem [DecidableEq ι] (k : ι) (x : τ) (l : List (ι × τ))
    (h : ∀ p ∈ l, p.1 ≠ k) : upsert k x l = l ++ [(k, x)] := by
  induction l with
  | nil => rfl
  | cons p t ih =>
    obtain ⟨k₀, x₀⟩ := p
    have hk : k₀ ≠ k := h (k₀, x₀) (by simp)
    simp only [upsert, if_neg hk, List.cons_append, List.cons.injEq, true_and]
    exact ih fun q hq => h q (by simp [hq])

/-- Replaying scan writes for pairwise distinct items, starting from a
map whose keys avoid those items, appends one entry per item in write
order. -/
theorem scanWrites_nodup [DecidableEq ι] (g : ι → Except String γ) :
    ∀ (l : List ι) (acc : List (ι × ScanStored γ)),
      l.Nodup → (∀ it ∈ l, ∀ p ∈ acc, p.1 ≠ it) →
      scanWrites g l (some acc)
        = some (acc ++ l.map fun it => (it, scanEntryOf g it)) := by
  intro l
  induction l with
  | nil => intro acc _ _; simp [scanWrites]
  | cons it rest ih =>
    intro acc hnd hdisj
    simp only [scanWrites, Option.getD_some]
    rw [upsert_of_not_mem it _ acc (fun p hp => hdisj it (by simp) p hp)]
    rw [ih (acc ++ [(it, scanEntryOf g it)]) (List.Nodup.of_cons hnd) ?_]
    · simp
    · intro x hx p hp
      rcases List.mem_append.mp hp with hp | hp
      · exact hdisj x (by simp [hx]) p hp
      · simp only [List.mem_singleton] at hp
        subst hp
        intro hcontra
        exact (List.nodup_cons.mp hnd).1
          (by rw [show it = x from hcontra]; exact hx)

/-- Replaying scan writes for a nonempty list of pairwise distinct items
produces one entry per item, in write order. -/
theorem scanWrites_none_nodup [DecidableEq ι] (g : ι → Except String γ)
    (l : List ι) (hnd : l.Nodup) (hne : l ≠ []) :
    scanWrites g l none = some (l.map fun it => (it, scanEntryOf g it)) := by
  cases l with
  | nil => exact absurd rfl hne
  | cons it rest =>
    simp only [scanWrites, Option.getD_none]
    have hup : upsert it (scanEntryOf g it) [] = [(it, scanEntryOf g it)] := rfl
    rw [hup]
    rw [scanWrites_nodup g rest [(it, scanEntryOf g it)] (List.Nodup.of_cons hnd) ?_]
    · simp
    · intro x hx p hp
      simp only [List.mem_singleton] at hp
      subst hp
      intro hcontra
      exact (List.nodup_cons.mp hnd).1
        (by rw [show it = x from hcontra]; exact hx)

/-- The `itemsToProcess` loop is the concatenation of the per-entry
contributions, in entry order. -/
theorem itemsToProcessOf_eq_join (extractF : ι → ScanStored γ → ExtractVal π)
    (entries : List (ι × ScanStored γ)) :
    itemsToProcessOf extractF entries
      = (entries.map (contribOfEntry extractF)).flatten := by
  suffices h : ∀ (entries : List (ι × ScanStored γ)) (init : List π),
      entries.foldl (fun acc e => acc ++ contribOfEntry extractF e) init
        = init ++ (entries.map (contribOfEntry extractF)).flatten by
    simpa using h entries []
  intro es
  induction es with
  | nil => intro init; simp
  | cons e rest ih => intro init; simp [List.foldl_cons, ih]

/-- An effective numeric option is positive whenever its default is. -/
theorem jsOrNat_pos (v : Option Nat) (dflt : Nat) (h : 0 < dflt) :
    0 < jsOrNat v dflt := by
  cases v with
  | none => simpa [jsOrNat] using h
  | some n =>
    by_cases hn : n = 0
    · simpa [jsOrNat, hn] using h
    · simpa [jsOrNat, hn] using Nat.pos_of_ne_zero hn

/-- Chunks concatenate back to the original list (with enough fuel and a
positive chunk size). -/
theorem chunksAux_join (k : Nat) (hk : 0 < k) :
    ∀ (fuel : Nat) (xs : List τ), xs.length ≤ fuel →
      (chunksAux k fuel xs).flatten = xs := by
  intro fuel
  induction fuel with
  | zero =>
    intro xs hle
    have : xs = [] := by
      cases xs with
      | nil => rfl
      | cons a t => simp at hle
    simp [this, chunksAux]
  | succ n ih =>
    intro xs hle
    cases xs with
    | nil => simp [chunksAux]
    | cons a t =>
      simp only [chunksAux, List.flatten_cons]
      rw [ih ((a :: t).drop k) ?_]
      · exact List.take_append_drop k (a :: t)
      · simp only [List.length_drop, List.length_cons] at *
        omega

/-- Every chunk has at most `k` elements. -/
theorem chunksAux_length_le (k : Nat) :
    ∀ (fuel : Nat) (xs : List τ), ∀ chunk ∈ chunksAux k fuel xs,
      chunk.length ≤ k := by
  intro fuel
  induction fuel with
  | zero => intro xs chunk hc; simp [chunksAux] at hc
  | succ n ih =>
    intro xs chunk hc
    cases xs with
    | nil => simp [chunksAux] at hc
    | cons a t =>
      simp only [chunksAux, List.mem_cons] at hc
      rcases hc with hc | hc
      · subst hc
        simpa using List.length_take_le k (a :: t)
      · exact ih _ chunk hc

/-- `chunkList` restores the original list. -/
theorem chunkList_join (k : Nat) (hk : 0 < k) (xs : List τ) :
    (chunkList k xs).flatten = xs :=
  chunksAux_join k hk xs.length xs (Nat.le_refl _)

/-- The batch loop, when no batch propagates an exception, concatenates
the per-batch results in batch order, performs one delay after every
batch except the last, and returns normally. -/
theorem rlLoopAux_spec
    (runBatch : List ι → List Nat → List (POutcome ι β) × List (β × Nat × Nat) × Option String)
    (delay : Nat) (hd : 0 < delay) (scheds : List (List Nat))
    (hok : ∀ batch sc, (runBatch batch sc).2.2 = none) :
    ∀ (bs : List (List ι)) (bi : Nat),
      rlLoopAux runBatch delay scheds bi bs
        = (((bs.enumFrom bi).map fun b => (runBatch b.2 (scheds.getD b.1 [])).1).flatten,
           List.replicate (bs.length - 1) delay,
           none) := by
  intro bs
  induction bs with
  | nil => intro bi; rfl
  | cons batch rest ih =>
    intro bi
    simp only [rlLoopAux, hok batch (scheds.getD bi []), ih (bi + 1),
      List.enumFrom_cons, List.map_cons, List.flatten_cons, List.length_cons,
      Nat.succ_sub_one]
    cases rest with
    | nil => simp
    | cons b2 r2 =>
      have hdne : ¬delay = 0 := by omega
      simp [hdne, List.replicate_succ]

/-- Two filters whose predicates are pointwise complementary on a list
split its length. -/
theorem length_filter_partition (p q : τ → Bool) (l : List τ)
    (h : ∀ x ∈ l, q x = !p x) :
    (l.filter p).length + (l.filter q).length = l.length := by
  induction l with
  | nil => simp
  | cons a t ih =>
    have ha := h a (by simp)
    have ht := ih fun x hx => h x (by simp [hx])
    cases hp : p a
    · have hq : q a = true := by rw [ha, hp]; rfl
      simp only [List.filter_cons, hp, hq, if_true, if_false, List.length_cons,
        Bool.false_eq_true, ↓reduceIte]
      omega
    · have hq : q a = false := by rw [ha, hp]; rfl
      simp only [List.filter_cons, hp, hq, if_true, if_false, List.length_cons,
        Bool.false_eq_true, ↓reduceIte]
      omega

/-- C10: applied to a value that is not an array, `generateSummary`
returns the all-zero summary `{total: 0, successful: 0, failed: 0,
skipped: 0}` and raises no error. -/
theorem generateSummary_non_array (tag : String) :
    generateSummary (.notArray tag) = ⟨0, 0, 0, 0⟩ := rfl

/-- C6 counterexample: the claim fails as stated.  A record with the
explicit status `SKIPPED` lands in neither bucket, so `skipped` is 1,
not 0, even though every record carries an explicit status; and a record
with status `SUCCESS` that also carries an `error` satisfies both filter
predicates, i.e. it is counted in both buckets. -/
theorem generateSummary_buckets_cex :
    jsTruthy (ResultRec.mk (some "SKIPPED") none).status = true ∧
    (generateSummary (.arr [ResultRec.mk (some "SKIPPED") none])).skipped ≠ 0 ∧
    isSuccessRec ⟨some "SUCCESS", some "x"⟩ = true ∧
    isFailedRec ⟨some "SUCCESS", some "x"⟩ = true := by
  refine ⟨rfl, ?_, rfl, rfl⟩
  decide

/-- C6 (amended): `successful` counts records with status `SUCCESS` or
with neither a truthy status nor a truthy error, `failed` counts records
with status `FAILED` or with a truthy error (a record with status
`SUCCESS` and an error is counted in both buckets), and `skipped` is the
signed difference `total - successful - failed`, so `successful + failed
+ skipped = total` holds for every input; `skipped = 0` whenever every
record either has status `SUCCESS` with no error or has status
`FAILED`. -/
theorem generateSummary_algebra (rs : List ResultRec) :
    (generateSummary (.arr rs)).successful = (rs.filter isSuccessRec).length ∧
    (generateSummary (.arr rs)).failed = (rs.filter isFailedRec).length ∧
    ((generateSummary (.arr rs)).successful : Int) + (generateSummary (.arr rs)).failed
        + (generateSummary (.arr rs)).skipped = (generateSummary (.arr rs)).total ∧
    ((∀ r ∈ rs, (r.status = some "SUCCESS" ∧ jsTruthy r.error = false)
        ∨ r.status = some "FAILED") →
      (generateSummary (.arr rs)).skipped = 0) := by
  refine ⟨rfl, rfl, by simp only [generateSummary]; omega, ?_⟩
  intro h
  have hsplit : (rs.filter isSuccessRec).length + (rs.filter isFailedRec).length
      = rs.length := by
    refine length_filter_partition _ _ rs ?_
    intro r hr
    rcases h r hr with ⟨hs, he⟩ | hs
    · have h1 : isSuccessRec r = true := by
        simp [isSuccessRec, hs]
      have h2 : isFailedRec r = false := by
        have hb : ((some "SUCCESS" : Option String) == some "FAILED") = false := rfl
        simp [isFailedRec, hs, he, hb]
      rw [h2, h1]
      rfl
    · have h1 : isSuccessRec r = false := by
        have hb : ((some "FAILED" : Option String) == some "SUCCESS") = false := rfl
        have htr : jsTruthy (some "FAILED") = true := rfl
        simp [isSuccessRec, hs, hb, htr]
      have h2 : isFailedRec r = true := by
        simp [isFailedRec, hs]
      rw [h2, h1]
      rfl
  simp only [generateSummary]
  omega

/-- C6 witness: the amended theorem applied to a concrete two-record
list whose statuses are `SUCCESS` (no error) and `FAILED`. -/
theorem generateSummary_algebra_witness :
    (generateSummary (.arr [⟨some "SUCCESS", none⟩, ⟨some "FAILED", some "e"⟩])).skipped
      = 0 :=
  (generateSummary_algebra [⟨some "SUCCESS", none⟩, ⟨some "FAILED", some "e"⟩]).2.2.2
    (by decide)

/-- C1 counterexample: the claim fails as stated for `createScanTasks`.
Scan outcomes are stored in an object keyed by item, so a duplicated
work item overwrites its earlier outcome: scanning the 2-item list
`["a", "a"]` records a single outcome, not one per input item. -/
theorem scanResults_drops_duplicate_item :
    ((createScanTasks 3 ["a", "a"] (fun _ => Except.ok (0 : Nat)) ⟨some 1⟩ []).getD
        []).length = 1 ∧
    (["a", "a"] : List String).length = 2 := by
  refine ⟨rfl, rfl⟩

/-- C1 (amended): with `exitOnError` off and a positive effective
concurrency, a `createProcessTasks` run over N items always records
exactly N outcomes, and the recorded multiset is exactly one outcome per
enumerated input item (so each outcome is attributable to its input item
and none is dropped); a `createScanTasks` run records one outcome per
item key, hence exactly N outcomes — one attributable to each input item
— whenever the N items are pairwise distinct. -/
theorem scheduler_completeness [DecidableEq ι] (dc : Nat) (items : List ι)
    (f : ι → Nat → Except String β) (g : ι → Except String γ)
    (opts : ProcOpts) (sched : List Nat)
    (hc : 0 < jsOrNat opts.concurrency dc) :
    (createProcessTasks dc false items f opts sched).1.length = items.length ∧
    ((createProcessTasks dc false items f opts sched).1).Perm
      (items.enum.map (outcomeOf f)) ∧
    (items.Nodup →
      ((createScanTasks dc items g ⟨opts.concurrency⟩ sched).getD []).length
          = items.length ∧
      (((createScanTasks dc items g ⟨opts.concurrency⟩ sched).getD []).map
          Prod.fst).Perm items) := by
  have hpermE : (runPool (jsOrNat opts.concurrency dc) items.enum sched).Perm items.enum :=
    runPool_perm _ hc items.enum sched
  have hres : (createProcessTasks dc false items f opts sched).1
      = (runPool (jsOrNat opts.concurrency dc) items.enum sched).map (outcomeOf f) := by
    simp only [createProcessTasks]
    exact procRun_results f items.length opts.hasProgress _
  refine ⟨?_, ?_, ?_⟩
  · rw [hres]
    simp [hpermE.length_eq]
  · rw [hres]
    exact hpermE.map (outcomeOf f)
  · intro hnd
    have hpermS : (runPool (jsOrNat opts.concurrency dc) items sched).Perm items :=
      runPool_perm _ hc items sched
    by_cases hempty : items = []
    · subst hempty
      refine ⟨rfl, ?_⟩
      simp [createScanTasks, runPool, runPoolAux, scanWrites]
    · have hndCO : (runPool (jsOrNat opts.concurrency dc) items sched).Nodup :=
        hpermS.nodup_iff.mpr hnd
      have hneCO : runPool (jsOrNat opts.concurrency dc) items sched ≠ [] := by
        intro h0
        have := hpermS.length_eq
        rw [h0] at this
        exact hempty (List.length_eq_zero.mp this.symm)
      rw [createScanTasks, scanWrites_none_nodup g _ hndCO hneCO]
      refine ⟨?_, ?_⟩
      · simp [hpermS.length_eq]
      · rw [Option.getD_some, List.map_map]
        have hcomp : (Prod.fst ∘ fun it : ι => (it, scanEntryOf g it))
            = fun it : ι => it := rfl
        rw [hcomp]
        simpa using hpermS

/-- C1 witness: the amended theorem applied to two distinct items with
concurrency 2. -/
theorem scheduler_completeness_witness :
    (createProcessTasks 3 false ["x", "y"] (fun s _ => Except.ok s)
        ⟨some 2, false⟩ []).1.length = 2 ∧
    ((createScanTasks 3 ["x", "y"] (fun _ => Except.ok (0 : Nat))
        ⟨some 2⟩ []).getD []).length = 2 := by
  have h := scheduler_completeness 3 ["x", "y"] (fun s _ => Except.ok s)
    (fun _ => Except.ok (0 : Nat)) ⟨some 2, false⟩ [] (by decide)
  exact ⟨h.1, (h.2.2 (by decide)).1⟩

/-- C2: during a run of the pool over N enumerated items with effective
concurrency `C`, every state of the pool-state trace holds at most
`min C N` in-flight unit-of-work invocations; the same bound holds for a
pool over any raw task list, which covers the scan runner. -/
theorem scheduler_concurrency_bound (dc : Nat) (items : List ι) (tasks : List τ)
    (opts : ProcOpts) (c : Nat) (sched : List Nat) :
    (∀ s ∈ poolStates (jsOrNat opts.concurrency dc) items.enum sched,
        s.2.length ≤ min (jsOrNat opts.concurrency dc) items.length) ∧
    (∀ s ∈ poolStates c tasks sched, s.2.length ≤ min c tasks.length) := by
  refine ⟨?_, poolStates_bound c tasks sched⟩
  intro s hs
  have h := poolStates_bound (jsOrNat opts.concurrency dc) items.enum sched s hs
  simpa using h

/-- C2 witness: in the trace of a run of 3 items at concurrency 2, the
first recorded pool state holds 2 in-flight tasks, within the bound
`min 2 3`. -/
theorem scheduler_concurrency_bound_witness :
    (([(2, "c")], [(0, "a"), (1, "b")]) :
        List (Nat × String) × List (Nat × String)).2.length
      ≤ min (jsOrNat (some 2) 3) (["a", "b", "c"] : List String).length := by
  exact (scheduler_concurrency_bound 3 ["a", "b", "c"] ([] : List String)
    ⟨some 2, false⟩ 2 []).1 ([(2, "c")], [(0, "a"), (1, "b")]) (by decide)

/-- C3: if the callback throws for item `i` and `exitOnError` is off,
then no exception propagates out of the run, the outcome recorded for
item `i` is the FAILED record carrying the thrown message, and the full
recorded multiset is still exactly one outcome per input item, each
determined by the callback on that item alone. -/
theorem scheduler_failure_isolation (dc : Nat) (items : List ι)
    (f : ι → Nat → Except String β) (opts : ProcOpts) (sched : List Nat)
    (i : Nat) (msg : String) (hi : i < items.length)
    (herr : f items[i] i = .error msg)
    (hc : 0 < jsOrNat opts.concurrency dc) :
    (createProcessTasks dc false items f opts sched).2.2 = none ∧
    POutcome.failed items[i] msg ∈ (createProcessTasks dc false items f opts sched).1 ∧
    ((createProcessTasks dc false items f opts sched).1).Perm
      (items.enum.map (outcomeOf f)) := by
  have hpermE : (runPool (jsOrNat opts.concurrency dc) items.enum sched).Perm items.enum :=
    runPool_perm _ hc items.enum sched
  have hres : (createProcessTasks dc false items f opts sched).1
      = (runPool (jsOrNat opts.concurrency dc) items.enum sched).map (outcomeOf f) := by
    simp only [createProcessTasks]
    exact procRun_results f items.length opts.hasProgress _
  refine ⟨?_, ?_, ?_⟩
  · simp only [createProcessTasks]
    exact procRun_no_throw f items.length opts.hasProgress _
  · have hmem : (i, items[i]) ∈ items.enum := by
      have hlen : i < items.enum.length := by simpa using hi
      have := List.getElem_mem hlen
      simpa [List.getElem_enum] using this
    have hout : outcomeOf f (i, items[i]) = POutcome.failed items[i] msg := by
      simp [outcomeOf, herr]
    have hPmem : POutcome.failed items[i] msg ∈ items.enum.map (outcomeOf f) :=
      hout ▸ List.mem_map_of_mem (outcomeOf f) hmem
    rw [hres]
    exact ((hpermE.map (outcomeOf f)).mem_iff).mpr hPmem
  · rw [hres]
    exact hpermE.map (outcomeOf f)

/-- C3 witness: two items at concurrency 2 where the first item's
callback throws. -/
theorem scheduler_failure_isolation_witness :
    POutcome.failed "a" "boom" ∈
      (createProcessTasks 3 false ["a", "b"]
        (fun s _ => if s = "a" then Except.error "boom" else Except.ok s)
        ⟨some 2, false⟩ []).1 := by
  exact (scheduler_failure_isolation 3 ["a", "b"]
    (fun s _ => if s = "a" then Except.error "boom" else Except.ok s)
    ⟨some 2, false⟩ [] 0 "boom" (by decide) (by rfl) (by decide)).2.1

/-- C4: the claim fails on the code for the two-phase workflow.
`createProcessTasks` over zero items does return an empty result with no
callback invoked and no error, but `createScanAndProcessWorkflow` over
zero scan items never writes `ctx.scanResults`, so line 152 evaluates
`Object.entries(undefined)`, which throws a TypeError instead of
returning empty results. -/
theorem empty_input_workflow_throws :
    createProcessTasks 3 false ([] : List String) (fun s _ => Except.ok s)
        ⟨none, false⟩ [] = ([], [], none) ∧
    createScanAndProcessWorkflow 3 false ([] : List String)
        (fun _ => Except.ok (ExtractVal.arr ([] : List String)))
        (fun s _ => Except.ok s) (defaultExtract fun m => m) ⟨none, false⟩ [] []
      = .error "Cannot convert undefined or null to object" :=
  ⟨rfl, rfl⟩

/-- C5 counterexample: the claim fails as stated.  Line 153 tests the
truthiness of `scanResult.error`, so a scan failure whose thrown error
has an empty message stores `{error: ""}`, is *not* skipped, and is
handed to the extraction function: with an extraction returning one
sub-item, the sole scan item — whose outcome records an error —
contributes one process item instead of zero, and phase 2 runs over
it. -/
theorem workflow_error_entry_extracted_cex :
    contribOfEntry (fun (_ : String) (_ : ScanStored Nat) => ExtractVal.arr ["P"])
        ("A", ScanStored.errRec "") = ["P"] ∧
    createScanAndProcessWorkflow 3 false ["A"]
        (fun _ => (Except.error "" : Except String Nat))
        (fun s _ => Except.ok s)
        (fun (_ : String) (_ : ScanStored Nat) => ExtractVal.arr ["P"])
        ⟨none, false⟩ [] []
      = .ok ⟨[("A", ScanStored.errRec "")], [POutcome.ok "P"], true⟩ :=
  ⟨rfl, rfl⟩

/-- C5 (amended): in the two-phase workflow the process-item list is the
concatenation, in entry order, of the per-entry contributions; an entry
recording an error with a nonempty message contributes zero process
items, while a falsy error record `{error: ""}` is not skipped — under
the default pass-through extraction the record itself is pushed as a
single process item; when the flattened list is empty, phase 2 is
skipped entirely and the workflow returns the scan results with an empty
`processResults`; and for the concrete 3-item scan where A discovers 2
sub-items, B fails outright (with a nonempty message) and C discovers 0
sub-items, under the default extraction exactly the 2 items from A are
processed. -/
theorem workflow_scan_to_process_flattening [DecidableEq ι] (dc : Nat)
    (exitOnError : Bool) (scanItems : List ι) (g : ι → Except String γ)
    (f : π → Nat → Except String β) (extractF : ι → ScanStored γ → ExtractVal π)
    (opts : ProcOpts) (schedScan schedProc : List Nat)
    (entries : List (ι × ScanStored γ))
    (hscan : createScanTasks dc scanItems g ⟨opts.concurrency⟩ schedScan
      = some entries) :
    itemsToProcessOf extractF entries
        = (entries.map (contribOfEntry extractF)).flatten ∧
    (∀ (it : ι) (msg : String), msg ≠ "" →
      contribOfEntry extractF ((it, ScanStored.errRec msg) : ι × ScanStored γ)
        = ([] : List π)) ∧
    (∀ (emb : String → π) (it : ι),
      contribOfEntry (defaultExtract emb)
          ((it, ScanStored.errRec "") : ι × ScanStored (ExtractVal π))
        = [emb ""]) ∧
    (itemsToProcessOf extractF entries = [] →
      createScanAndProcessWorkflow dc exitOnError scanItems g f extractF opts
          schedScan schedProc = .ok ⟨entries, [], false⟩) ∧
    createScanAndProcessWorkflow 3 false ["A", "B", "C"]
        (fun s => if s = "A" then Except.ok (ExtractVal.arr ["A1", "A2"])
          else if s = "B" then Except.error "boom"
          else Except.ok (ExtractVal.arr ([] : List String)))
        (fun s _ => Except.ok s) (defaultExtract fun m => m) ⟨none, false⟩ [] []
      = .ok ⟨[("A", .val (.arr ["A1", "A2"])), ("B", .errRec "boom"),
              ("C", .val (.arr []))],
             [.ok "A1", .ok "A2"], true⟩ := by
  refine ⟨itemsToProcessOf_eq_join extractF entries, ?_, fun emb it => rfl, ?_, rfl⟩
  · intro it msg hmsg
    have htr : errFieldTruthy ((ScanStored.errRec msg : ScanStored γ)) = true := by
      simp [errFieldTruthy, hmsg]
    simp [contribOfEntry, htr]
  · intro hempty
    simp only [createScanAndProcessWorkflow, hscan, hempty, List.length_nil]
    rfl

/-- C5 witness: the amended theorem applied twice at concrete inputs —
a truthy-error entry contributes nothing, and a single scan item
discovering an empty array leads to an empty flattened list and the
short-circuit return. -/
theorem workflow_scan_to_process_flattening_witness :
    contribOfEntry (fun (_ : String) (_ : ScanStored Nat) => ExtractVal.arr ["Q"])
        ("Y", ScanStored.errRec "boom") = [] ∧
    createScanAndProcessWorkflow 3 false ["X"]
        (fun _ => Except.ok (ExtractVal.arr ([] : List String)))
        (fun s _ => Except.ok s) (defaultExtract fun m => m) ⟨none, false⟩ [] []
      = .ok ⟨[("X", ScanStored.val (ExtractVal.arr []))], [], false⟩ := by
  refine ⟨?_, ?_⟩
  · exact (workflow_scan_to_process_flattening 3 false ["Y"]
      (fun _ => Except.ok (0 : Nat)) (fun s _ => Except.ok s)
      (fun (_ : String) (_ : ScanStored Nat) => ExtractVal.arr ["Q"])
      ⟨none, false⟩ [] [] [("Y", ScanStored.val 0)] rfl).2.1
      "Y" "boom" (by decide)
  · exact (workflow_scan_to_process_flattening 3 false ["X"]
      (fun _ => Except.ok (ExtractVal.arr ([] : List String)))
      (fun s _ => Except.ok s) (defaultExtract fun m => m) ⟨none, false⟩ [] []
      [("X", ScanStored.val (ExtractVal.arr []))] rfl).2.2.2.1 rfl

/-- C8: the claim fails on the code.  Outcomes are appended to the
shared `ctx.processResults` at completion time, so the aggregate is in
completion order, not keyed by original index: with 2 items at
concurrency 2 and the second item's callback resolving first, the run
records `[outcome(b), outcome(a)]`, which differs from the input-order
aggregate. -/
theorem processResults_completion_order :
    (createProcessTasks 3 false ["a", "b"] (fun s _ => Except.ok s)
        ⟨some 2, false⟩ [1]).1 = [POutcome.ok "b", POutcome.ok "a"] ∧
    (createProcessTasks 3 false ["a", "b"] (fun s _ => Except.ok s)
        ⟨some 2, false⟩ [1]).1
      ≠ (["a", "b"] : List String).enum.map (outcomeOf fun s _ => Except.ok s) := by
  refine ⟨rfl, ?_⟩
  decide

/-- C9 counterexample: the claim fails as stated.  Running `["a", "b"]`
sequentially with a progress callback where the callback for `a` throws
produces exactly one progress invocation, not one per item: the failed
item triggers none (the call sits on the success path only), and the
surviving invocation carries the item's original index 1 as its second
argument even though 2 items have completed at that point. -/
theorem progress_callback_cex :
    (createProcessTasks 3 false ["a", "b"]
        (fun s _ => if s = "a" then Except.error "boom" else Except.ok s)
        ⟨some 1, true⟩ []).2.1 = [("b", 1, 2)] ∧
    (createProcessTasks 3 false ["a", "b"]
        (fun s _ => if s = "a" then Except.error "boom" else Except.ok s)
        ⟨some 1, true⟩ []).2.1.length ≠ (["a", "b"] : List String).length := by
  refine ⟨rfl, ?_⟩
  decide

/-- C9 (amended): with a progress callback supplied and `exitOnError`
off, the callback is invoked exactly once per item whose unit callback
succeeds — in completion order, right after that item's result is
recorded — with the result, the item's original input index (not the
completed-so-far count) and the total item count; items whose callback
throws trigger no invocation. -/
theorem progress_callback_per_success (dc : Nat) (items : List ι)
    (f : ι → Nat → Except String β) (cfg : Option Nat) (sched : List Nat)
    (hc : 0 < jsOrNat cfg dc) :
    (createProcessTasks dc false items f ⟨cfg, true⟩ sched).2.1
      = (runPool (jsOrNat cfg dc) items.enum sched).filterMap
          (fun x => match f x.2 x.1 with
            | .ok r => some (r, x.1, items.length)
            | .error _ => none) ∧
    ((createProcessTasks dc false items f ⟨cfg, true⟩ sched).2.1).Perm
      (items.enum.filterMap
        (fun x => match f x.2 x.1 with
          | .ok r => some (r, x.1, items.length)
          | .error _ => none)) := by
  have hprog : (createProcessTasks dc false items f ⟨cfg, true⟩ sched).2.1
      = (runPool (jsOrNat cfg dc) items.enum sched).filterMap
          (fun x => match f x.2 x.1 with
            | .ok r => some (r, x.1, items.length)
            | .error _ => none) := by
    simp only [createProcessTasks]
    exact procRun_progress f items.length _
  refine ⟨hprog, ?_⟩
  rw [hprog]
  exact (runPool_perm _ hc items.enum sched).filterMap _

/-- C9 witness: the amended theorem applied to a concrete sequential run
with one failing and one succeeding item. -/
theorem progress_callback_per_success_witness :
    (createProcessTasks 3 false ["a", "b"]
        (fun s _ => if s = "a" then Except.error "boom" else Except.ok s)
        ⟨some 1, true⟩ []).2.1
      = (runPool (jsOrNat (some 1) 3) (["a", "b"] : List String).enum []).filterMap
          (fun x =>
            match (if x.2 = "a" then Except.error "boom" else Except.ok x.2 :
                Except String String) with
            | .ok r => some (r, x.1, 2)
            | .error _ => none) := by
  exact (progress_callback_per_success 3 ["a", "b"]
    (fun s _ => if s = "a" then Except.error "boom" else Except.ok s)
    (some 1) [] (by decide)).1

/-- C7: `createRateLimitedTasks` partitions the items into consecutive
chunks of at most the effective batch size (`batchSize || 10`, so never
0): the chunks concatenate back to the input and each is within the
bound.  The run processes the chunks strictly in order, concatenating
the per-chunk outcome lists in chunk order, sleeps the effective delay
(`delay || 1000`) exactly once after every chunk except the last, and
propagates no exception.  With the default batch size and 25 items this
yields 3 chunks of sizes 10, 10 and 5 and exactly the two delays
`[1000, 1000]`. -/
theorem rateLimited_chunking (o : Option Nat) (xs : List τ) (dc : Nat)
    (items : List ι) (f : ι → Nat → Except String β) (opts : RLOpts)
    (scheds : List (List Nat)) :
    (chunkList (jsOrNat o 10) xs).flatten = xs ∧
    (∀ chunk ∈ chunkList (jsOrNat o 10) xs, chunk.length ≤ jsOrNat o 10) ∧
    createRateLimitedTasks dc false items f opts scheds
      = ((((chunkList (jsOrNat opts.batchSize 10) items).enumFrom 0).map
            fun b => (createProcessTasks dc false b.2 f
              ⟨some (min (jsOrNat opts.concurrency dc) (jsOrNat opts.batchSize 10)),
               opts.hasProgress⟩ (scheds.getD b.1 [])).1).flatten,
         List.replicate ((chunkList (jsOrNat opts.batchSize 10) items).length - 1)
           (jsOrNat opts.delay 1000),
         none) ∧
    (chunkList 10 (List.range 25)).map List.length = [10, 10, 5] ∧
    (createRateLimitedTasks 3 false (List.range 25) (fun n _ => Except.ok n)
        ⟨none, none, none, false⟩ []).2.1 = [1000, 1000] := by
  refine ⟨chunkList_join _ (jsOrNat_pos o 10 (by omega)) xs,
    fun chunk hc => chunksAux_length_le _ _ xs chunk hc, ?_, rfl, rfl⟩
  simp only [createRateLimitedTasks]
  exact rlLoopAux_spec _ _ (jsOrNat_pos opts.delay 1000 (by omega)) scheds
    (fun batch sc => procRun_no_throw f batch.length opts.hasProgress _)
    (chunkList (jsOrNat opts.batchSize 10) items) 0

/-- C7 witness: the first chunk of 25 items at the default batch size is
within the bound. -/
theorem rateLimited_chunking_witness :
    ((List.range 25).take 10).length ≤ jsOrNat (none : Option Nat) 10 := by
  exact (rateLimited_chunking (none : Option Nat) (List.range 25) 3
    ([] : List Nat) (fun n _ => Except.ok n) ⟨none, none, none, false⟩ []).2.1
    ((List.range 25).take 10) (by decide)

end Emoo
